import Mathlib

/-!
Verification of the schema-aware cascading mutation and archival engine of
`db_app_sale` (files `app/data_manager.py` and its twin `app/database.py`).

The engine is embedded shallowly: rows are association lists from column
names to SQL values, tables are lists of rows, and the database is an
association list from table names to tables.  Caller-supplied predicates
(opaque SQL `WHERE` text in the source) are modelled as boolean functions
on rows.  The foreign-key edges that the source rediscovers from the
catalog on every call are passed as explicit arguments.
-/

namespace DbAppSale

/-- A SQL value as it appears in a fetched row: NULL, text, integer or
boolean.  This is the fragment of value types the application manipulates. -/
inductive Value where
  | null : Value
  | str : String → Value
  | int : Int → Value
  | bool : Bool → Value
deriving DecidableEq, Repr

/-- Python truthiness (`if value:`): the empty string, the integer `0`,
`False` and `None` are falsy; everything else is truthy.  The source guards
every use of a caller-supplied update value with this test. -/
def Value.truthy : Value → Bool
  | .null => false
  | .str s => s ≠ ""
  | .int n => n ≠ 0
  | .bool b => b

/-- SQL equality as used in a `WHERE col = %s` comparison: a comparison
against NULL never holds, otherwise the values are compared structurally. -/
def sqlEq (v w : Value) : Bool :=
  match v, w with
  | .null, _ => false
  | _, .null => false
  | v, w => v == w

/-- A fetched row: column names paired with values, in column order. -/
abbrev Row := List (String × Value)

/-- A table is a list of rows (physical row order is list order). -/
abbrev Table := List Row

/-- The database: table names paired with their current contents. -/
abbrev DB := List (String × Table)

/-- Contents of a named table; a name not in the database denotes the
empty table. -/
def getTable (db : DB) (name : String) : Table :=
  (db.lookup name).getD []

/-- Replace the contents of a named table. -/
def setTable : DB → String → Table → DB
  | [], name, tbl => [(name, tbl)]
  | (m, u) :: rest, name, tbl =>
    if m = name then (name, tbl) :: rest else (m, u) :: setTable rest name tbl

theorem getTable_setTable_self (db : DB) (name : String) (tbl : Table) :
    getTable (setTable db name tbl) name = tbl := by
  induction db with
  | nil => simp [getTable, setTable, List.lookup]
  | cons hd rest ih =>
    obtain ⟨m, u⟩ := hd
    by_cases h : m = name
    · subst h
      simp [setTable, getTable, List.lookup]
    · have hb : (name == m) = false := beq_eq_false_iff_ne.mpr (Ne.symm h)
      simp only [setTable, if_neg h]
      simpa [getTable, List.lookup, hb] using ih

theorem getTable_setTable_ne (db : DB) (name other : String) (tbl : Table)
    (h : other ≠ name) :
    getTable (setTable db name tbl) other = getTable db other := by
  have hb : (other == name) = false := beq_eq_false_iff_ne.mpr h
  induction db with
  | nil => simp [getTable, setTable, List.lookup, hb]
  | cons hd rest ih =>
    obtain ⟨m, u⟩ := hd
    by_cases hm : m = name
    · subst hm
      simp [setTable, getTable, List.lookup, hb]
    · simp only [setTable, if_neg hm]
      by_cases ho : other = m
      · subst ho
        simp [getTable, List.lookup]
      · have hb2 : (other == m) = false := beq_eq_false_iff_ne.mpr ho
        simpa [getTable, List.lookup, hb2] using ih

/-- A foreign-key edge of the table being updated, as returned by the
in-call catalog query of `modify_table_data` / `update_data`
(`kcu.column_name`, `ccu.table_name`, `ccu.column_name`): the updated
table is the child, `columnName` its referencing column, and
`foreignTableName`.`foreignColumnName` the referenced parent column. -/
structure FKEdge where
  columnName : String
  foreignTableName : String
  foreignColumnName : String
deriving DecidableEq, Repr

/-- A referencing edge as returned by `get_referenced_tables` /
`get_referencing_tables`: `referencingTable`.`referencingColumn` holds
values that reference the table passed to the delete operations. -/
structure RefEdge where
  referencingTable : String
  referencingColumn : String
deriving DecidableEq, Repr

/-- A DML statement issued by the cascading update. -/
inductive Stmt where
  | updateParent (foreignTable foreignColumn : String) (newValue oldValue : Value)
  | updateRow (table : String) (setValues : List (String × Value)) (whereClause : Row)
deriving DecidableEq, Repr

/-- The `SET` clause of the row's own `UPDATE` in `modify_table_data`:
only the keys of `update_data` whose value is truthy are kept
(`if update_data[k]` in the source). -/
def setClause (updateData : List (String × Value)) : List (String × Value) :=
  updateData.filter fun kv => kv.2.truthy

/-- The contribution of one foreign-key edge while processing one matched
pre-image row (`if local_column in data and data[local_column]:` followed
by `if old_value != new_value:` in the source): a parent-table update is
issued only when the child column is present in `update_data` with a
truthy value, and the pre-image value differs from the new value. -/
def fkContribution (updateData : List (String × Value)) (rowDict : Row)
    (fk : FKEdge) : Option Stmt :=
  match updateData.lookup fk.columnName with
  | some newValue =>
    if newValue.truthy then
      match rowDict.lookup fk.columnName with
      | some oldValue =>
        if oldValue ≠ newValue then
          some (.updateParent fk.foreignTableName fk.foreignColumnName newValue oldValue)
        else none
      | none => none
    else none
  | none => none

/-- The parent-table updates issued for one matched pre-image row, in
foreign-key order: `UPDATE <parent> SET <parentCol> = new WHERE <parentCol>
= old` for every edge whose child column is changing. -/
def fkUpdates (updateData : List (String × Value)) (foreignKeys : List FKEdge)
    (rowDict : Row) : List Stmt :=
  foreignKeys.filterMap (fkContribution updateData rowDict)

/-- All statements issued while processing one matched pre-image row:
the parent-table updates, then the row's own `UPDATE` whose `WHERE`
clause is the full pre-image. -/
def rowStmts (tableName : String) (updateData : List (String × Value))
    (foreignKeys : List FKEdge) (rowDict : Row) : List Stmt :=
  fkUpdates updateData foreignKeys rowDict
    ++ [.updateRow tableName (setClause updateData) rowDict]

/-- The full statement trace of `modify_table_data table_name update_data
filter_condition`: the rows matching the condition are fetched up front,
then each matched row is processed in order. -/
def modifyTableDataTrace (tableName : String) (updateData : List (String × Value))
    (foreignKeys : List FKEdge) (tbl : Table) (cond : Row → Bool) : List Stmt :=
  (tbl.filter cond).flatMap (rowStmts tableName updateData foreignKeys)

/-- Whether a candidate row satisfies an `AND`-of-equalities `WHERE`
clause: every listed column must SQL-equal the listed value. -/
def rowWhereMatch (whereClause : Row) (candidate : Row) : Bool :=
  whereClause.all fun kv =>
    match candidate.lookup kv.1 with
    | some w => sqlEq w kv.2
    | none => false

/-- Apply a `SET` clause to a row: listed columns take the new value,
other columns are unchanged. -/
def applySet (setValues : List (String × Value)) (r : Row) : Row :=
  r.map fun kv =>
    match setValues.lookup kv.1 with
    | some v => (kv.1, v)
    | none => kv

/-- Semantics of `UPDATE <tbl> SET <setValues> WHERE <whereClause>`:
every row satisfying the clause is rewritten, every other row kept. -/
def execUpdate (tbl : Table) (setValues : List (String × Value)) (whereClause : Row) : Table :=
  tbl.map fun r => if rowWhereMatch whereClause r then applySet setValues r else r

/-- Number of physical rows targeted by an `UPDATE` with the given
`WHERE` clause. -/
def updateTargets (whereClause : Row) (tbl : Table) : Nat :=
  tbl.countP fun r => rowWhereMatch whereClause r

theorem flatMap_decomp {α β : Type} (f : α → List β) {l : List α} {a : α}
    (h : a ∈ l) : ∃ pre post, l.flatMap f = pre ++ f a ++ post := by
  induction l with
  | nil => cases h
  | cons b t ih =>
    rcases List.mem_cons.mp h with rfl | ht
    · exact ⟨[], t.flatMap f, by simp⟩
    · obtain ⟨pre, post, hp⟩ := ih ht
      exact ⟨f b ++ pre, post, by simp [hp]⟩

theorem sqlEq_self {v : Value} (h : v ≠ .null) : sqlEq v v = true := by
  cases v <;> simp_all [sqlEq]

theorem sqlEq_iff_eq {v w : Value} (hv : v ≠ .null) (hw : w ≠ .null) :
    sqlEq v w = true ↔ v = w := by
  cases v <;> cases w <;> simp_all [sqlEq]

theorem lookup_eq_of_nodup {r : Row} {kv : String × Value}
    (hnd : (r.map Prod.fst).Nodup) (hkv : kv ∈ r) :
    r.lookup kv.1 = some kv.2 := by
  induction r with
  | nil => cases hkv
  | cons hd t ih =>
    rcases List.mem_cons.mp hkv with rfl | ht
    · simp [List.lookup]
    · have hne : kv.1 ≠ hd.1 := by
        intro he
        have : hd.1 ∈ t.map Prod.fst := he ▸ List.mem_map_of_mem Prod.fst ht
        exact (List.nodup_cons.mp hnd).1 this
      have hb : (kv.1 == hd.1) = false := beq_eq_false_iff_ne.mpr hne
      simpa [List.lookup, hb] using ih (List.nodup_cons.mp hnd).2 ht

/-- C1.  For every cascading update call `modify_table_data(table,
newValues, predicate)` and every matched pre-image row: for each
foreign-key edge of the table whose child column is present with a
non-empty (truthy) value in `newValues` and whose pre-image value
differs from the new value, the engine issues `UPDATE <parentTable> SET
<parentColumn> = new WHERE <parentColumn> = old` — a statement that
rewrites every parent row holding the old value — and it appears in the
issued trace strictly before that row's own `UPDATE`. -/
theorem cascading_update_parent_first
    (tableName : String) (updateData : List (String × Value))
    (foreignKeys : List FKEdge) (tbl : Table) (cond : Row → Bool)
    (r : Row) (fk : FKEdge) (newV oldV : Value)
    (hr : r ∈ tbl.filter cond) (hfk : fk ∈ foreignKeys)
    (hnew : updateData.lookup fk.columnName = some newV)
    (htruthy : newV.truthy = true)
    (hold : r.lookup fk.columnName = some oldV)
    (hne : oldV ≠ newV) :
    (∃ pre mid post,
        modifyTableDataTrace tableName updateData foreignKeys tbl cond =
          pre ++ [Stmt.updateParent fk.foreignTableName fk.foreignColumnName newV oldV]
            ++ mid ++ [Stmt.updateRow tableName (setClause updateData) r] ++ post)
    ∧ ∀ parentTbl : Table,
        execUpdate parentTbl [(fk.foreignColumnName, newV)] [(fk.foreignColumnName, oldV)] =
          parentTbl.map fun prow =>
            if rowWhereMatch [(fk.foreignColumnName, oldV)] prow
            then applySet [(fk.foreignColumnName, newV)] prow
            else prow := by
  constructor
  · have hmem : Stmt.updateParent fk.foreignTableName fk.foreignColumnName newV oldV
        ∈ fkUpdates updateData foreignKeys r := by
      refine List.mem_filterMap.mpr ⟨fk, hfk, ?_⟩
      simp [fkContribution, hnew, htruthy, hold, hne]
    obtain ⟨l₁, l₂, hfd⟩ := List.append_of_mem hmem
    obtain ⟨pre, post, hPQ⟩ :=
      flatMap_decomp (rowStmts tableName updateData foreignKeys) hr
    refine ⟨pre ++ l₁, l₂, post, ?_⟩
    rw [modifyTableDataTrace, hPQ, rowStmts, hfd]
    simp
  · intro parentTbl
    rfl

def ordersRow : Row := [("id", Value.int 3), ("customer_id", Value.str "5")]

def ordersTbl : Table := [ordersRow]

def ordersFks : List FKEdge := [⟨"customer_id", "customers", "id"⟩]

def ordersData : List (String × Value) := [("customer_id", Value.str "7")]

def ordersCond : Row → Bool := fun row => row.lookup "id" == some (Value.int 3)

theorem cascading_update_parent_first_witness :
    ordersRow ∈ ordersTbl.filter ordersCond
    ∧ (⟨"customer_id", "customers", "id"⟩ : FKEdge) ∈ ordersFks
    ∧ ordersData.lookup "customer_id" = some (Value.str "7")
    ∧ (Value.str "7").truthy = true
    ∧ ordersRow.lookup "customer_id" = some (Value.str "5")
    ∧ Value.str "5" ≠ Value.str "7"
    ∧ ((∃ pre mid post,
          modifyTableDataTrace "orders" ordersData ordersFks ordersTbl ordersCond =
            pre ++ [Stmt.updateParent "customers" "id" (Value.str "7") (Value.str "5")]
              ++ mid ++ [Stmt.updateRow "orders" (setClause ordersData) ordersRow] ++ post)
        ∧ ∀ parentTbl : Table,
            execUpdate parentTbl [("id", Value.str "7")] [("id", Value.str "5")] =
              parentTbl.map fun prow =>
                if rowWhereMatch [("id", Value.str "5")] prow
                then applySet [("id", Value.str "7")] prow
                else prow) :=
  ⟨by decide, by decide, by decide, by decide, by decide, by decide,
    cascading_update_parent_first "orders" ordersData ordersFks ordersTbl ordersCond
      ordersRow ⟨"customer_id", "customers", "id"⟩ (Value.str "7") (Value.str "5")
      (by decide) (by decide) (by decide) (by decide) (by decide) (by decide)⟩

theorem countP_decide_eq_one {α : Type} [DecidableEq α] {l : List α} {a : α}
    (hnd : l.Nodup) (ha : a ∈ l) : l.countP (fun x => decide (x = a)) = 1 := by
  induction l with
  | nil => cases ha
  | cons b t ih =>
    rcases List.mem_cons.mp ha with rfl | ht
    · have hnotin : a ∉ t := (List.nodup_cons.mp hnd).1
      have hzero : t.countP (fun x => decide (x = a)) = 0 :=
        List.countP_eq_zero.mpr fun x hx => by
          simp only [decide_eq_true_iff]
          exact fun he => hnotin (he ▸ hx)
      simp [List.countP_cons, hzero]
    · have hne : b ≠ a := by
        intro he
        exact (List.nodup_cons.mp hnd).1 (he ▸ ht)
      have := ih (List.nodup_cons.mp hnd).2 ht
      simp [List.countP_cons, this, hne]

theorem rowWhereMatch_self {r : Row} (hnd : (r.map Prod.fst).Nodup)
    (hnr : ∀ kv ∈ r, kv.2 ≠ Value.null) : rowWhereMatch r r = true := by
  rw [rowWhereMatch, List.all_eq_true]
  intro kv hkv
  rw [lookup_eq_of_nodup hnd hkv]
  exact sqlEq_self (hnr kv hkv)

theorem rowWhereMatch_eq_iff {r t : Row}
    (hk : t.map Prod.fst = r.map Prod.fst)
    (hnd : (r.map Prod.fst).Nodup)
    (hnr : ∀ kv ∈ r, kv.2 ≠ Value.null)
    (hnt : ∀ kv ∈ t, kv.2 ≠ Value.null) :
    rowWhereMatch r t = true ↔ t = r := by
  constructor
  · induction r generalizing t with
    | nil =>
      intro _
      simpa using (List.map_eq_nil_iff.mp hk)
    | cons hd r' ih =>
      intro hmatch
      cases t with
      | nil => simp at hk
      | cons td t' =>
        have hk1 : td.1 = hd.1 := by
          have := congrArg (fun l => l.headD "") hk
          simpa using this
        have hktail : t'.map Prod.fst = r'.map Prod.fst := by
          have := congrArg List.tail hk
          simpa using this
        have hall := (List.all_eq_true.mp hmatch)
        have hhead := hall hd (List.mem_cons_self hd (r' : Row))
        have hlk : (td :: t').lookup hd.1 = some td.2 := by
          have hb : (hd.1 == td.1) = true := beq_iff_eq.mpr hk1.symm
          simp [List.lookup, hb]
        rw [hlk] at hhead
        have hv : td.2 = hd.2 :=
          (sqlEq_iff_eq (hnt td (List.mem_cons_self td t'))
            (hnr hd (List.mem_cons_self hd r'))).mp hhead
        have hnd' : (r'.map Prod.fst).Nodup := (List.nodup_cons.mp hnd).2
        have hndhd : hd.1 ∉ r'.map Prod.fst := (List.nodup_cons.mp hnd).1
        have htail : rowWhereMatch r' t' = true := by
          rw [rowWhereMatch, List.all_eq_true]
          intro kv hkv
          have hkvne : kv.1 ≠ td.1 := by
            rw [hk1]
            intro he
            exact hndhd (he ▸ List.mem_map_of_mem Prod.fst hkv)
          have hb : (kv.1 == td.1) = false := beq_eq_false_iff_ne.mpr hkvne
          have := hall kv (List.mem_cons_of_mem hd hkv)
          simpa [List.lookup, hb] using this
        have ht' : t' = r' :=
          ih hktail hnd' (fun kv h => hnr kv (List.mem_cons_of_mem hd h))
            (fun kv h => hnt kv (List.mem_cons_of_mem td h)) htail
        have htd : td = hd := Prod.ext hk1 hv
        rw [htd, ht']
  · rintro rfl
    exact rowWhereMatch_self (hk ▸ hnd) hnt

/-- C4 counterexample.  A table with no unique key holding two physically
distinct but value-identical rows: the matched row's own `UPDATE` (whose
`WHERE` clause is the full pre-image) is issued, but it targets both
physical rows, not exactly the matched one. -/
def dupRow : Row := [("a", Value.str "x")]

def dupTbl : Table := [dupRow, dupRow]

/-- C4 is false as stated: in `dupTbl` the pre-image `WHERE` clause of the
matched first row targets 2 physical rows, not exactly that row. -/
theorem update_where_targets_duplicates :
    Stmt.updateRow "t" (setClause [("a", Value.str "y")]) dupRow
        ∈ modifyTableDataTrace "t" [("a", Value.str "y")] [] dupTbl (fun _ => true)
      ∧ updateTargets dupRow dupTbl = 2 := by
  decide

/-- C4 (amended).  Each matched row's own `UPDATE` uses the full pre-image
as its `WHERE` clause (equality on every original column); the rows it
targets are exactly those whose columns all SQL-equal the pre-image, so it
targets exactly the matched physical row provided the rows of the table
are pairwise distinct and free of NULL values — with duplicate rows every
value-identical row is targeted as well. -/
theorem update_where_full_preimage
    (tableName : String) (updateData : List (String × Value))
    (foreignKeys : List FKEdge) (tbl : Table) (cond : Row → Bool) (r : Row)
    (hr : r ∈ tbl.filter cond)
    (hkeys : ∀ t ∈ tbl, t.map Prod.fst = r.map Prod.fst)
    (hnodupk : (r.map Prod.fst).Nodup)
    (hnonull : ∀ t ∈ tbl, ∀ kv ∈ t, kv.2 ≠ Value.null)
    (hnodup : tbl.Nodup) :
    (∃ pre post,
        modifyTableDataTrace tableName updateData foreignKeys tbl cond =
          pre ++ [Stmt.updateRow tableName (setClause updateData) r] ++ post)
    ∧ updateTargets r tbl = 1 := by
  have hrtbl : r ∈ tbl := (List.mem_filter.mp hr).1
  constructor
  · obtain ⟨pre, post, hPQ⟩ :=
      flatMap_decomp (rowStmts tableName updateData foreignKeys) hr
    refine ⟨pre ++ fkUpdates updateData foreignKeys r, post, ?_⟩
    rw [modifyTableDataTrace, hPQ, rowStmts]
    simp
  · have hcongr : ∀ t ∈ tbl, rowWhereMatch r t = true ↔ (decide (t = r)) = true := by
      intro t ht
      rw [decide_eq_true_iff]
      exact rowWhereMatch_eq_iff (hkeys t ht) hnodupk
        (hnonull r hrtbl) (hnonull t ht)
    rw [updateTargets, List.countP_congr hcongr]
    exact countP_decide_eq_one hnodup hrtbl

def distinctTbl : Table := [[("a", Value.str "x")], [("a", Value.str "z")]]

def distinctCond : Row → Bool := fun row => row.lookup "a" == some (Value.str "x")

theorem update_where_full_preimage_witness :
    [("a", Value.str "x")] ∈ distinctTbl.filter distinctCond
    ∧ (∀ t ∈ distinctTbl, t.map Prod.fst = [("a", Value.str "x")].map
        (Prod.fst (α := String) (β := Value)))
    ∧ (([("a", Value.str "x")].map (Prod.fst (α := String) (β := Value))).Nodup)
    ∧ (∀ t ∈ distinctTbl, ∀ kv ∈ t, (kv : String × Value).2 ≠ Value.null)
    ∧ distinctTbl.Nodup
    ∧ ((∃ pre post,
          modifyTableDataTrace "t" [("a", Value.str "w")] [] distinctTbl distinctCond =
            pre ++ [Stmt.updateRow "t" (setClause [("a", Value.str "w")])
              [("a", Value.str "x")]] ++ post)
        ∧ updateTargets [("a", Value.str "x")] distinctTbl = 1) :=
  ⟨by decide, by decide, by decide, by decide, by decide,
    update_where_full_preimage "t" [("a", Value.str "w")] [] distinctTbl distinctCond
      [("a", Value.str "x")] (by decide) (by decide) (by decide) (by decide) (by decide)⟩

/-- C10.  A key of `newValues` whose value is Python-falsy — the empty
string, but equally the integer `0` and `False` — is silently ignored by
the cascading update: it is excluded from the row's `SET` clause, its
foreign-key edge contributes no parent-table update, so a caller cannot
set a column to `0` through this operation; and when every value is falsy
the generated `UPDATE` carries an empty `SET` clause. -/
theorem falsy_update_values_ignored
    (updateData : List (String × Value)) (k : String) (v : Value)
    (hnd : (updateData.map Prod.fst).Nodup)
    (hk : updateData.lookup k = some v)
    (hfalsy : v.truthy = false) :
    (Value.str "").truthy = false
    ∧ (Value.int 0).truthy = false
    ∧ (Value.bool false).truthy = false
    ∧ k ∉ (setClause updateData).map Prod.fst
    ∧ (∀ (rowDict : Row) (fk : FKEdge), fk.columnName = k →
        fkContribution updateData rowDict fk = none)
    ∧ ((∀ kv ∈ updateData, kv.2.truthy = false) → setClause updateData = []) := by
  refine ⟨by decide, by decide, by decide, ?_, ?_, ?_⟩
  · intro hmem
    obtain ⟨kv, hkvmem, hkv1⟩ := List.mem_map.mp hmem
    have hkvdata : kv ∈ updateData := (List.mem_filter.mp hkvmem).1
    have htr : kv.2.truthy = true := by
      simpa [setClause] using (List.mem_filter.mp hkvmem).2
    have hlk : updateData.lookup kv.1 = some kv.2 := lookup_eq_of_nodup hnd hkvdata
    rw [hkv1, hk] at hlk
    have hveq : v = kv.2 := Option.some.inj hlk
    rw [← hveq, hfalsy] at htr
    cases htr
  · intro rowDict fk hcol
    simp [fkContribution, hcol, hk, hfalsy]
  · intro hall
    exact List.filter_eq_nil_iff.mpr fun kv hkv => by simp [hall kv hkv]

def falsyData : List (String × Value) := [("a", Value.int 0), ("b", Value.str "x")]

theorem falsy_update_values_ignored_witness :
    (falsyData.map Prod.fst).Nodup
    ∧ falsyData.lookup "a" = some (Value.int 0)
    ∧ (Value.int 0).truthy = false
    ∧ ((Value.str "").truthy = false
        ∧ (Value.int 0).truthy = false
        ∧ (Value.bool false).truthy = false
        ∧ "a" ∉ (setClause falsyData).map Prod.fst
        ∧ (∀ (rowDict : Row) (fk : FKEdge), fk.columnName = "a" →
            fkContribution falsyData rowDict fk = none)
        ∧ ((∀ kv ∈ falsyData, kv.2.truthy = false) → setClause falsyData = [])) :=
  ⟨by decide, by decide, by decide,
    falsy_update_values_ignored falsyData "a" (Value.int 0)
      (by decide) (by decide) (by decide)⟩

/-- `SELECT id FROM <table> WHERE <condition>`: the `id` value of every
matching row (the engine assumes a conventional primary-key column named
`id`; a missing column is modelled as NULL, which never matches). -/
def selectIds (tbl : Table) (cond : Row → Bool) : List Value :=
  (tbl.filter cond).map fun r => (r.lookup "id").getD .null

/-- SQL `v IN (list)`: true iff `v` SQL-equals some member of the list. -/
def valueInList (v : Value) (vs : List Value) : Bool :=
  vs.any fun w => sqlEq v w

/-- One referencing-table delete of `remove_table_data` / `delete_data`:
`DELETE FROM <refTable> WHERE <refColumn> IN (SELECT id FROM <table>
WHERE <condition>)`, evaluated against the current database state. -/
def refDeleteStep (tableName : String) (cond : Row → Bool) (db : DB)
    (e : RefEdge) : DB :=
  let ids := selectIds (getTable db tableName) cond
  setTable db e.referencingTable
    ((getTable db e.referencingTable).filter fun r =>
      !(valueInList ((r.lookup e.referencingColumn).getD .null) ids))

/-- `remove_table_data(table, condition)`: delete from each referencing
table the rows whose foreign-key column is in the sub-select, then delete
the matching rows from the table itself; return whether the final delete
affected at least one row. -/
def remove_table_data (db : DB) (refs : List RefEdge) (tableName : String)
    (cond : Row → Bool) : DB × Bool :=
  let db1 := refs.foldl (refDeleteStep tableName cond) db
  let affected := (getTable db1 tableName).countP cond
  (setTable db1 tableName ((getTable db1 tableName).filter fun r => !cond r),
   decide (0 < affected))

/-- Result of `safe_remove_table_data`: either blocked with the list of
referencing tables and their dependent-row counts, or the delete was
performed and affected the given number of rows. -/
inductive SafeDeleteResult where
  | blocked (dependencyList : List (String × Nat)) : SafeDeleteResult
  | deleted (rowsAffected : Nat) : SafeDeleteResult
deriving DecidableEq, Repr

/-- The dependent-row count checked by `safe_remove_table_data` for one
referencing edge: `SELECT COUNT(*) FROM <refTable> WHERE <refColumn> IN
(SELECT id FROM <table> WHERE <condition>)`. -/
def dependencyCount (db : DB) (tableName : String) (cond : Row → Bool)
    (e : RefEdge) : Nat :=
  (getTable db e.referencingTable).countP fun r =>
    valueInList ((r.lookup e.referencingColumn).getD .null)
      (selectIds (getTable db tableName) cond)

/-- `safe_remove_table_data(table, condition)`: count dependents for every
referencing edge; if any count is positive, return the blocking list
without mutating anything, otherwise delete the matching rows and return
the affected-row count. -/
def safe_remove_table_data (db : DB) (refs : List RefEdge) (tableName : String)
    (cond : Row → Bool) : DB × SafeDeleteResult :=
  let dependencyList := refs.filterMap fun e =>
    let c := dependencyCount db tableName cond e
    if 0 < c then some (e.referencingTable, c) else none
  if dependencyList.isEmpty then
    let affected := (getTable db tableName).countP cond
    (setTable db tableName ((getTable db tableName).filter fun r => !cond r),
     .deleted affected)
  else (db, .blocked dependencyList)

/-- C2.  A safe delete call with at least one dependent row in some
referencing table performs no write at all — the database, and hence
every table's row count, is unchanged — and returns a non-success result
carrying the full list of blocking tables with their counts; only when
every dependent count is zero does it delete the matching rows and return
the affected-row count. -/
theorem safe_delete_blocked_or_deletes
    (db : DB) (refs : List RefEdge) (tableName : String) (cond : Row → Bool) :
    ((∃ e ∈ refs, 0 < dependencyCount db tableName cond e) →
      (safe_remove_table_data db refs tableName cond).1 = db
      ∧ (∀ t, (getTable (safe_remove_table_data db refs tableName cond).1 t).length
            = (getTable db t).length)
      ∧ ∃ deps, (safe_remove_table_data db refs tableName cond).2 = .blocked deps
          ∧ ∀ (t : String) (c : Nat), (t, c) ∈ deps ↔
              (0 < c ∧ ∃ e ∈ refs, e.referencingTable = t
                ∧ dependencyCount db tableName cond e = c))
    ∧ ((∀ e ∈ refs, dependencyCount db tableName cond e = 0) →
      (safe_remove_table_data db refs tableName cond).1
          = setTable db tableName ((getTable db tableName).filter fun r => !cond r)
      ∧ (safe_remove_table_data db refs tableName cond).2
          = .deleted ((getTable db tableName).countP cond)) := by
  constructor
  · rintro ⟨e, he, hpos⟩
    have hmem : (e.referencingTable, dependencyCount db tableName cond e) ∈
        refs.filterMap fun e =>
          if 0 < dependencyCount db tableName cond e
          then some (e.referencingTable, dependencyCount db tableName cond e)
          else none :=
      List.mem_filterMap.mpr ⟨e, he, by simp [hpos]⟩
    have hne : (refs.filterMap fun e =>
        if 0 < dependencyCount db tableName cond e
        then some (e.referencingTable, dependencyCount db tableName cond e)
        else none) ≠ [] := by
      intro hnil
      rw [hnil] at hmem
      cases hmem
    have hemp : (refs.filterMap fun e =>
        if 0 < dependencyCount db tableName cond e
        then some (e.referencingTable, dependencyCount db tableName cond e)
        else none).isEmpty = false := by
      cases hl : (refs.filterMap fun e =>
          if 0 < dependencyCount db tableName cond e
          then some (e.referencingTable, dependencyCount db tableName cond e)
          else none) with
      | nil => exact absurd hl hne
      | cons a l => simp [hl, List.isEmpty]
    refine ⟨?_, ?_, ?_⟩
    · simp [safe_remove_table_data, hemp]
    · intro t
      simp [safe_remove_table_data, hemp]
    · refine ⟨refs.filterMap fun e =>
          if 0 < dependencyCount db tableName cond e
          then some (e.referencingTable, dependencyCount db tableName cond e)
          else none, by simp [safe_remove_table_data, hemp], ?_⟩
      intro t c
      constructor
      · intro hin
        obtain ⟨e', he', hfe⟩ := List.mem_filterMap.mp hin
        by_cases hc : 0 < dependencyCount db tableName cond e'
        · simp only [if_pos hc, Option.some.injEq, Prod.mk.injEq] at hfe
          exact ⟨hfe.2 ▸ hc, e', he', hfe.1, hfe.2⟩
        · simp [if_neg hc] at hfe
      · rintro ⟨hc, e', he', ht, hcount⟩
        exact List.mem_filterMap.mpr ⟨e', he', by simp [hcount, ht, hc ,hcount]⟩
  · intro hall
    have hnil : (refs.filterMap fun e =>
        if 0 < dependencyCount db tableName cond e
        then some (e.referencingTable, dependencyCount db tableName cond e)
        else none) = [] :=
      List.filterMap_eq_nil_iff.mpr fun e he => by simp [hall e he]
    constructor
    · simp [safe_remove_table_data, hnil]
    · simp [safe_remove_table_data, hnil]

def parentTbl0 : Table := [[("id", Value.int 1)]]

def childTbl0 : Table := [[("fk", Value.int 1)], [("fk", Value.int 2)]]

def db0 : DB := [("p", parentTbl0), ("c", childTbl0)]

def refs0 : List RefEdge := [⟨"c", "fk"⟩]

def condAll : Row → Bool := fun _ => true

theorem safe_delete_blocked_or_deletes_witness :
    (∃ e ∈ refs0, 0 < dependencyCount db0 "p" condAll e)
    ∧ ((safe_remove_table_data db0 refs0 "p" condAll).1 = db0
      ∧ (∀ t, (getTable (safe_remove_table_data db0 refs0 "p" condAll).1 t).length
            = (getTable db0 t).length)
      ∧ ∃ deps, (safe_remove_table_data db0 refs0 "p" condAll).2 = .blocked deps
          ∧ ∀ (t : String) (c : Nat), (t, c) ∈ deps ↔
              (0 < c ∧ ∃ e ∈ refs0, e.referencingTable = t
                ∧ dependencyCount db0 "p" condAll e = c)) :=
  ⟨by decide, (safe_delete_blocked_or_deletes db0 refs0 "p" condAll).1 (by decide)⟩

theorem refFold_spec (tableName : String) (cond : Row → Bool)
    (refs : List RefEdge) (db : DB)
    (hself : ∀ e ∈ refs, e.referencingTable ≠ tableName) :
    getTable (refs.foldl (refDeleteStep tableName cond) db) tableName
        = getTable db tableName
    ∧ ∀ t : String, t ≠ tableName →
        getTable (refs.foldl (refDeleteStep tableName cond) db) t
          = (getTable db t).filter fun r =>
              !(refs.any fun e => e.referencingTable == t
                  && valueInList ((r.lookup e.referencingColumn).getD .null)
                       (selectIds (getTable db tableName) cond)) := by
  induction refs generalizing db with
  | nil => exact ⟨rfl, fun t _ => by simp⟩
  | cons e rest ih =>
    have heself : e.referencingTable ≠ tableName := hself e (List.mem_cons_self e rest)
    have hrest : ∀ e' ∈ rest, e'.referencingTable ≠ tableName :=
      fun e' h => hself e' (List.mem_cons_of_mem e h)
    have hstep : getTable (refDeleteStep tableName cond db e) tableName
        = getTable db tableName := by
      rw [refDeleteStep]
      exact getTable_setTable_ne _ _ _ _ (Ne.symm heself)
    obtain ⟨ih1, ih2⟩ := ih (refDeleteStep tableName cond db e) hrest
    constructor
    · rw [List.foldl_cons, ih1, hstep]
    · intro t ht
      rw [List.foldl_cons, ih2 t ht, hstep]
      by_cases hte : t = e.referencingTable
      · have hget : getTable (refDeleteStep tableName cond db e) t
            = (getTable db t).filter fun r =>
                !(valueInList ((r.lookup e.referencingColumn).getD .null)
                    (selectIds (getTable db tableName) cond)) := by
          rw [refDeleteStep, hte]
          exact getTable_setTable_self db e.referencingTable _
        rw [hget, List.filter_filter]
        refine List.filter_congr fun r _ => ?_
        have hbeq : (e.referencingTable == t) = true := beq_iff_eq.mpr hte.symm
        simp [hbeq, Bool.not_or, Bool.and_comm]
      · have hget : getTable (refDeleteStep tableName cond db e) t
            = getTable db t := by
          rw [refDeleteStep]
          exact getTable_setTable_ne _ _ _ _ hte
        have hbeq : (e.referencingTable == t) = false :=
          beq_eq_false_iff_ne.mpr fun h => hte h.symm
        rw [hget]
        refine List.filter_congr fun r _ => ?_
        simp [hbeq]

/-- C3.  A cascading delete call `remove_table_data(table, predicate)`,
with no restriction on the foreign-key graph (self-referencing edges
included): each referencing-table delete, executed against the state
produced by the earlier referencing deletes, removes exactly the rows of
the referencing table whose foreign-key column is in `SELECT id FROM
table WHERE predicate` as that sub-select evaluates at that moment, and
touches no other table; after all referencing deletes, the matching rows
are deleted from the table itself; and the call returns `true` iff that
final delete affected at least one row — the referencing deletes may
remove zero rows without affecting the result. -/
theorem cascading_delete_spec
    (db : DB) (refs : List RefEdge) (tableName : String) (cond : Row → Bool) :
    (∀ (pre post : List RefEdge) (e : RefEdge), refs = pre ++ e :: post →
      refs.foldl (refDeleteStep tableName cond) db
          = post.foldl (refDeleteStep tableName cond)
              (refDeleteStep tableName cond
                (pre.foldl (refDeleteStep tableName cond) db) e)
      ∧ getTable (refDeleteStep tableName cond
            (pre.foldl (refDeleteStep tableName cond) db) e) e.referencingTable
          = (getTable (pre.foldl (refDeleteStep tableName cond) db)
                e.referencingTable).filter (fun r =>
              !(valueInList ((r.lookup e.referencingColumn).getD .null)
                  (selectIds (getTable (pre.foldl (refDeleteStep tableName cond) db)
                    tableName) cond)))
      ∧ ∀ t : String, t ≠ e.referencingTable →
          getTable (refDeleteStep tableName cond
              (pre.foldl (refDeleteStep tableName cond) db) e) t
            = getTable (pre.foldl (refDeleteStep tableName cond) db) t)
    ∧ getTable (remove_table_data db refs tableName cond).1 tableName
        = (getTable (refs.foldl (refDeleteStep tableName cond) db) tableName).filter
            (fun r => !cond r)
    ∧ (∀ t : String, t ≠ tableName →
        getTable (remove_table_data db refs tableName cond).1 t
          = getTable (refs.foldl (refDeleteStep tableName cond) db) t)
    ∧ ((remove_table_data db refs tableName cond).2 = true
        ↔ ∃ r ∈ getTable (refs.foldl (refDeleteStep tableName cond) db) tableName,
            cond r = true) := by
  refine ⟨?_, ?_, ?_, ?_⟩
  · intro pre post e hdecomp
    refine ⟨?_, ?_, ?_⟩
    · rw [hdecomp, List.foldl_append, List.foldl_cons]
    · rw [refDeleteStep]
      exact getTable_setTable_self _ e.referencingTable _
    · intro t ht
      rw [refDeleteStep]
      exact getTable_setTable_ne _ _ _ _ ht
  · rw [remove_table_data]
    simp only [getTable_setTable_self]
  · intro t ht
    rw [remove_table_data]
    simp only [getTable_setTable_ne _ _ _ _ ht]
  · rw [remove_table_data]
    simp only [decide_eq_true_eq]
    exact List.countP_pos_iff

/-- Witness data for C3: an `emp` table referencing itself through
`manager_id` (employee 2 reports to employee 1); deleting `id = 1`
cascades into `emp` itself before the final delete. -/
def empDb : DB :=
  [("emp", [[("id", Value.int 1), ("manager_id", Value.null)],
            [("id", Value.int 2), ("manager_id", Value.int 1)]])]

def empRefs : List RefEdge := [⟨"emp", "manager_id"⟩]

def empCond : Row → Bool := fun r => r.lookup "id" == some (Value.int 1)

theorem cascading_delete_spec_witness :
    (∀ (pre post : List RefEdge) (e : RefEdge), empRefs = pre ++ e :: post →
      empRefs.foldl (refDeleteStep "emp" empCond) empDb
          = post.foldl (refDeleteStep "emp" empCond)
              (refDeleteStep "emp" empCond
                (pre.foldl (refDeleteStep "emp" empCond) empDb) e)
      ∧ getTable (refDeleteStep "emp" empCond
            (pre.foldl (refDeleteStep "emp" empCond) empDb) e) e.referencingTable
          = (getTable (pre.foldl (refDeleteStep "emp" empCond) empDb)
                e.referencingTable).filter (fun r =>
              !(valueInList ((r.lookup e.referencingColumn).getD .null)
                  (selectIds (getTable (pre.foldl (refDeleteStep "emp" empCond) empDb)
                    "emp") empCond)))
      ∧ ∀ t : String, t ≠ e.referencingTable →
          getTable (refDeleteStep "emp" empCond
              (pre.foldl (refDeleteStep "emp" empCond) empDb) e) t
            = getTable (pre.foldl (refDeleteStep "emp" empCond) empDb) t)
    ∧ getTable (remove_table_data empDb empRefs "emp" empCond).1 "emp"
        = (getTable (empRefs.foldl (refDeleteStep "emp" empCond) empDb) "emp").filter
            (fun r => !empCond r)
    ∧ (∀ t : String, t ≠ "emp" →
        getTable (remove_table_data empDb empRefs "emp" empCond).1 t
          = getTable (empRefs.foldl (refDeleteStep "emp" empCond) empDb) t)
    ∧ ((remove_table_data empDb empRefs "emp" empCond).2 = true
        ↔ ∃ r ∈ getTable (empRefs.foldl (refDeleteStep "emp" empCond) empDb) "emp",
            empCond r = true) :=
  cascading_delete_spec empDb empRefs "emp" empCond

/-- Environment of external effects for one archive batch: whether the
`pg_dump` table backup succeeds, whether the Excel/JSON export steps run
without raising, whether the `DROP TABLE` succeeds, and how many rows the
table holds (recorded in a success entry as `rows_archived`). -/
structure ArchiveEnv where
  backupOk : String → Bool
  exportOk : String → Bool
  dropOk : String → Bool
  rowCount : String → Nat

/-- One entry of the `archive_results` list of `archive_database_tables`:
either the success record appended after backup, both exports and the
drop all succeeded, or one of the failure notes appended by the
existence check, the backup failure, an export exception, or a drop
failure. -/
inductive ArchiveOutcome where
  | record (table : String) (rowsArchived : Nat) : ArchiveOutcome
  | noteNotExist (table : String) : ArchiveOutcome
  | noteBackupFailed (table : String) : ArchiveOutcome
  | noteArchiveError (table : String) : ArchiveOutcome
  | noteDropFailed (table : String) : ArchiveOutcome
deriving DecidableEq, Repr

/-- The table an archive outcome concerns. -/
def ArchiveOutcome.tableOf : ArchiveOutcome → String
  | .record t _ => t
  | .noteNotExist t => t
  | .noteBackupFailed t => t
  | .noteArchiveError t => t
  | .noteDropFailed t => t

/-- Whether the outcome is a success record (`status == 'success'`). -/
def ArchiveOutcome.isSuccess : ArchiveOutcome → Bool
  | .record _ _ => true
  | _ => false

/-- Whether the outcome is a pipeline-step failure that clears the
batch's `overall_success` flag.  A nonexistent-table note does not: the
source appends the note and `continue`s without touching the flag. -/
def ArchiveOutcome.isStepFailure : ArchiveOutcome → Bool
  | .noteBackupFailed _ => true
  | .noteArchiveError _ => true
  | .noteDropFailed _ => true
  | _ => false

/-- The three overall job outcomes of `archive_database_tables`:
full success, partial success (`mixed`), or failure. -/
inductive ArchiveStatus where
  | success : ArchiveStatus
  | mixed : ArchiveStatus
  | failure : ArchiveStatus
deriving DecidableEq, Repr

/-- The value returned by `archive_database_tables`: the overall status,
the ordered per-table outcome list, the archive-info manifest written to
the archive directory (results, count of successes, count of requested
tables) — `none` when the batch returned before creating it — and the
set of tables still existing afterwards. -/
structure ArchiveResult where
  status : ArchiveStatus
  results : List ArchiveOutcome
  manifest : Option (List ArchiveOutcome × Nat × Nat)
  finalTables : List String
deriving DecidableEq, Repr

/-- One iteration of the per-table loop of `archive_database_tables`:
check existence against the current table set, then backup, export and
drop, appending exactly one outcome and clearing the success flag on a
step failure; a successful drop removes the table from the set. -/
def archiveStep (env : ArchiveEnv) (st : List String × Bool × List ArchiveOutcome)
    (table : String) : List String × Bool × List ArchiveOutcome :=
  let (existing, flag, results) := st
  if table ∈ existing then
    if env.backupOk table then
      if env.exportOk table then
        if env.dropOk table then
          (existing.erase table, flag, results ++ [.record table (env.rowCount table)])
        else (existing, false, results ++ [.noteDropFailed table])
      else (existing, false, results ++ [.noteArchiveError table])
    else (existing, false, results ++ [.noteBackupFailed table])
  else (existing, flag, results ++ [.noteNotExist table])

/-- `archive_database_tables(table_list)`: an empty request fails before
any work; otherwise every requested table is processed in order, the
manifest is written after the loop, and the overall status is success
when the flag survived, failure when no table succeeded, and partial
success otherwise. -/
def archive_database_tables (env : ArchiveEnv) (existing : List String)
    (tableList : List String) : ArchiveResult :=
  if tableList.isEmpty then
    { status := .failure, results := [], manifest := none, finalTables := existing }
  else
    let st := tableList.foldl (archiveStep env) (existing, true, [])
    let results := st.2.2
    let successes := results.filter fun o => o.isSuccess
    { status :=
        if st.2.1 then ArchiveStatus.success
        else if successes.isEmpty then ArchiveStatus.failure
        else ArchiveStatus.mixed,
      results := results,
      manifest := some (results, successes.length, tableList.length),
      finalTables := st.1 }

theorem archiveStep_char (env : ArchiveEnv) (existing : List String) (flag : Bool)
    (acc : List ArchiveOutcome) (table : String) :
    ∃ (o : ArchiveOutcome) (ex' : List String),
      archiveStep env (existing, flag, acc) table
          = (ex', flag && !o.isStepFailure, acc ++ [o])
      ∧ o.tableOf = table := by
  by_cases h1 : table ∈ existing
  · by_cases h2 : env.backupOk table = true
    · by_cases h3 : env.exportOk table = true
      · by_cases h4 : env.dropOk table = true
        · exact ⟨.record table (env.rowCount table), existing.erase table,
            by simp [archiveStep, h1, h2, h3, h4, ArchiveOutcome.isStepFailure],
            rfl⟩
        · exact ⟨.noteDropFailed table, existing,
            by simp [archiveStep, h1, h2, h3, h4, ArchiveOutcome.isStepFailure],
            rfl⟩
      · exact ⟨.noteArchiveError table, existing,
          by simp [archiveStep, h1, h2, h3, ArchiveOutcome.isStepFailure], rfl⟩
    · exact ⟨.noteBackupFailed table, existing,
        by simp [archiveStep, h1, h2, ArchiveOutcome.isStepFailure], rfl⟩
  · exact ⟨.noteNotExist table, existing,
      by simp [archiveStep, h1, ArchiveOutcome.isStepFailure], rfl⟩

theorem archive_foldl_spec (env : ArchiveEnv) (tableList : List String) :
    ∀ (existing : List String) (flag : Bool) (acc : List ArchiveOutcome),
      ∃ newOut : List ArchiveOutcome,
        (tableList.foldl (archiveStep env) (existing, flag, acc)).2.2 = acc ++ newOut
        ∧ newOut.length = tableList.length
        ∧ (∀ i : Nat, (newOut.get? i).map ArchiveOutcome.tableOf = tableList.get? i)
        ∧ (tableList.foldl (archiveStep env) (existing, flag, acc)).2.1
            = (flag && !(newOut.any fun o => o.isStepFailure)) := by
  induction tableList with
  | nil => intro existing flag acc; exact ⟨[], by simp⟩
  | cons table rest ih =>
    intro existing flag acc
    obtain ⟨o, ex', hstep, htab⟩ := archiveStep_char env existing flag acc table
    obtain ⟨restOut, hacc, hlen, hidx, hflag⟩ :=
      ih ex' (flag && !o.isStepFailure) (acc ++ [o])
    refine ⟨o :: restOut, ?_, ?_, ?_, ?_⟩
    · rw [List.foldl_cons, hstep, hacc]
      simp
    · simp [hlen]
    · intro i
      cases i with
      | zero => simp [htab]
      | succ j => simpa using hidx j
    · rw [List.foldl_cons, hstep, hflag]
      simp [Bool.and_assoc]

/-- C5.  In an archive batch `archive_database_tables(table_list)` (for a
nonempty request), a failure at any pipeline step — existence check,
backup, export, drop — stops only that table's pipeline and is recorded
as that table's outcome: the outcome list has exactly one entry per
requested table, in request order, so every later table is still
attempted; and after all tables are processed the archive-info manifest
holding exactly that outcome list is written. -/
theorem archive_batch_isolates_failures
    (env : ArchiveEnv) (existing : List String) (tableList : List String)
    (h : tableList ≠ []) :
    (archive_database_tables env existing tableList).results.length = tableList.length
    ∧ (∀ i : Nat,
        ((archive_database_tables env existing tableList).results.get? i).map
            ArchiveOutcome.tableOf = tableList.get? i)
    ∧ (archive_database_tables env existing tableList).manifest
        = some ((archive_database_tables env existing tableList).results,
            ((archive_database_tables env existing tableList).results.filter
              fun o => o.isSuccess).length,
            tableList.length) := by
  have hne : tableList.isEmpty = false := by
    cases tableList with
    | nil => exact absurd rfl h
    | cons a l => simp [List.isEmpty]
  obtain ⟨newOut, hacc, hlen, hidx, _⟩ := archive_foldl_spec env tableList existing true []
  rw [List.nil_append] at hacc
  refine ⟨?_, ?_, ?_⟩
  · simp [archive_database_tables, hne, hacc, hlen]
  · intro i
    simpa [archive_database_tables, hne, hacc] using hidx i
  · simp [archive_database_tables, hne, hacc]

/-- Witness environment: table `b`'s backup step is forced to fail, every
other step succeeds. -/
def envFailB : ArchiveEnv :=
  ⟨fun t => t != "b", fun _ => true, fun _ => true, fun _ => 1⟩

theorem archive_batch_isolates_failures_witness :
    (["a", "b"] : List String) ≠ []
    ∧ ((archive_database_tables envFailB ["a", "b"] ["a", "b"]).results.length
          = (["a", "b"] : List String).length
      ∧ (∀ i : Nat,
          ((archive_database_tables envFailB ["a", "b"] ["a", "b"]).results.get? i).map
              ArchiveOutcome.tableOf = (["a", "b"] : List String).get? i)
      ∧ (archive_database_tables envFailB ["a", "b"] ["a", "b"]).manifest
          = some ((archive_database_tables envFailB ["a", "b"] ["a", "b"]).results,
              ((archive_database_tables envFailB ["a", "b"] ["a", "b"]).results.filter
                fun o => o.isSuccess).length,
              (["a", "b"] : List String).length)) :=
  ⟨by decide, archive_batch_isolates_failures envFailB ["a", "b"] ["a", "b"] (by decide)⟩

/-- Environment in which every external archive step succeeds. -/
def envAllOk : ArchiveEnv := ⟨fun _ => true, fun _ => true, fun _ => true, fun _ => 0⟩

/-- C6 counterexample.  Requesting the archive of a single table that does
not exist: no requested table succeeds (the only outcome is the
nonexistent-table note), yet the overall status is `success` — the claim
as stated requires status `failure` when no table succeeded.  The
existence-check note does not clear the batch's success flag. -/
theorem archive_status_counterexample :
    (archive_database_tables envAllOk [] ["t"]).status = .success
    ∧ ((archive_database_tables envAllOk [] ["t"]).results.filter
        fun o => o.isSuccess) = []
    ∧ (archive_database_tables envAllOk [] ["t"]).results
        = [ArchiveOutcome.noteNotExist "t"] := by
  decide

/-- C6 (amended).  For a nonempty archive batch, the overall status is
`success` iff no pipeline-step failure (backup, export or drop) was
recorded — tables skipped by the existence check do not affect the
status; it is partial (`mixed`) iff some step failed and at least one
table succeeded; and it is `failure` iff some step failed and no table
succeeded.  (An empty batch reports failure outright.) -/
theorem archive_status_amended
    (env : ArchiveEnv) (existing : List String) (tableList : List String)
    (h : tableList ≠ []) :
    ((archive_database_tables env existing tableList).status = .success
        ↔ ∀ o ∈ (archive_database_tables env existing tableList).results,
            o.isStepFailure = false)
    ∧ ((archive_database_tables env existing tableList).status = .mixed
        ↔ ((∃ o ∈ (archive_database_tables env existing tableList).results,
              o.isStepFailure = true)
            ∧ ∃ o ∈ (archive_database_tables env existing tableList).results,
              o.isSuccess = true))
    ∧ ((archive_database_tables env existing tableList).status = .failure
        ↔ ((∃ o ∈ (archive_database_tables env existing tableList).results,
              o.isStepFailure = true)
            ∧ ∀ o ∈ (archive_database_tables env existing tableList).results,
              o.isSuccess = false)) := by
  have hne : tableList.isEmpty = false := by
    cases tableList with
    | nil => exact absurd rfl h
    | cons a l => simp [List.isEmpty]
  obtain ⟨newOut, hacc, hlen, hidx, hflag⟩ :=
    archive_foldl_spec env tableList existing true []
  rw [List.nil_append] at hacc
  have hres : (archive_database_tables env existing tableList).results = newOut := by
    simp [archive_database_tables, hne, hacc]
  have hstat : (archive_database_tables env existing tableList).status
      = if !(newOut.any fun o => o.isStepFailure) then ArchiveStatus.success
        else if (newOut.filter fun o => o.isSuccess).isEmpty then ArchiveStatus.failure
        else ArchiveStatus.mixed := by
    simp [archive_database_tables, hne, hacc, hflag]
  rw [hres, hstat]
  by_cases ha : (newOut.any fun o => o.isStepFailure) = true
  · have hexf : ∃ o ∈ newOut, o.isStepFailure = true := by
      simpa using List.any_eq_true.mp ha
    have hnotall : ¬ ∀ o ∈ newOut, o.isStepFailure = false := by
      obtain ⟨x, hx, hpx⟩ := hexf
      intro hall
      rw [hall x hx] at hpx
      cases hpx
    by_cases hs : ((newOut.filter fun o => o.isSuccess).isEmpty : Bool) = true
    · have hnil : (newOut.filter fun o => o.isSuccess) = [] := List.isEmpty_iff.mp hs
      have hnos : ∀ o ∈ newOut, o.isSuccess = false := by
        intro o ho
        by_contra hoc
        have hmem : o ∈ newOut.filter fun o => o.isSuccess :=
          List.mem_filter.mpr ⟨ho, by simpa using hoc⟩
        rw [hnil] at hmem
        cases hmem
      have hnoex : ¬ ∃ o ∈ newOut, o.isSuccess = true := by
        rintro ⟨o, ho, hsus⟩
        rw [hnos o ho] at hsus
        cases hsus
      simp only [ha, Bool.not_true, if_false, hs, if_true]
      refine ⟨?_, ?_, ?_⟩
      · constructor
        · intro hcontra
          cases hcontra
        · intro hall
          exact absurd hall hnotall
      · constructor
        · intro hcontra
          cases hcontra
        · rintro ⟨_, hex⟩
          exact absurd hex hnoex
      · exact ⟨fun _ => ⟨hexf, hnos⟩, fun _ => by simp⟩
    · have hnnil : (newOut.filter fun o => o.isSuccess) ≠ [] := by
        intro hnil
        rw [hnil] at hs
        exact hs rfl
      have hexs : ∃ o ∈ newOut, o.isSuccess = true := by
        cases hfe : (newOut.filter fun o => o.isSuccess) with
        | nil => exact absurd hfe hnnil
        | cons x l =>
          have hx : x ∈ newOut.filter fun o => o.isSuccess := by
            rw [hfe]
            exact List.mem_cons_self x l
          exact ⟨x, (List.mem_filter.mp hx).1, (List.mem_filter.mp hx).2⟩
      have hnoall : ¬ ∀ o ∈ newOut, o.isSuccess = false := by
        obtain ⟨x, hx, hsx⟩ := hexs
        intro hall
        rw [hall x hx] at hsx
        cases hsx
      simp only [ha, Bool.not_true, if_false, hs, if_false]
      refine ⟨?_, ?_, ?_⟩
      · constructor
        · intro hcontra
          cases hcontra
        · intro hall
          exact absurd hall hnotall
      · exact ⟨fun _ => ⟨hexf, hexs⟩, fun _ => by simp⟩
      · constructor
        · intro hcontra
          cases hcontra
        · rintro ⟨_, hall⟩
          exact absurd hall hnoall
  · have haf : (newOut.any fun o => o.isStepFailure) = false :=
      Bool.eq_false_iff.mpr ha
    have hall : ∀ o ∈ newOut, o.isStepFailure = false := by
      intro o ho
      by_contra hoc
      exact ha (List.any_eq_true.mpr ⟨o, ho, by simpa using hoc⟩)
    have hnoex : ¬ ∃ o ∈ newOut, o.isStepFailure = true := by
      rintro ⟨o, ho, hof⟩
      rw [hall o ho] at hof
      cases hof
    simp only [haf, Bool.not_false, if_true]
    refine ⟨?_, ?_, ?_⟩
    · exact ⟨fun _ => hall, fun _ => trivial⟩
    · constructor
      · intro hcontra
        cases hcontra
      · rintro ⟨hex, _⟩
        exact absurd hex hnoex
    · constructor
      · intro hcontra
        cases hcontra
      · rintro ⟨hex, _⟩
        exact absurd hex hnoex

theorem archive_status_amended_witness :
    (["a", "b"] : List String) ≠ []
    ∧ (((archive_database_tables envFailB ["a", "b"] ["a", "b"]).status = .success
        ↔ ∀ o ∈ (archive_database_tables envFailB ["a", "b"] ["a", "b"]).results,
            o.isStepFailure = false)
      ∧ ((archive_database_tables envFailB ["a", "b"] ["a", "b"]).status = .mixed
        ↔ ((∃ o ∈ (archive_database_tables envFailB ["a", "b"] ["a", "b"]).results,
              o.isStepFailure = true)
            ∧ ∃ o ∈ (archive_database_tables envFailB ["a", "b"] ["a", "b"]).results,
              o.isSuccess = true))
      ∧ ((archive_database_tables envFailB ["a", "b"] ["a", "b"]).status = .failure
        ↔ ((∃ o ∈ (archive_database_tables envFailB ["a", "b"] ["a", "b"]).results,
              o.isStepFailure = true)
            ∧ ∀ o ∈ (archive_database_tables envFailB ["a", "b"] ["a", "b"]).results,
              o.isSuccess = false))) :=
  ⟨by decide, archive_status_amended envFailB ["a", "b"] ["a", "b"] (by decide)⟩

/-- Whether `pat` is a leading segment of `s` (character-wise). -/
def leadsWith : List Char → List Char → Bool
  | [], _ => true
  | _ :: _, [] => false
  | a :: as, b :: bs => a == b && leadsWith as bs

/-- Leftmost non-overlapping occurrence counting, the semantics of
Python's `s.count(pat)` for a non-empty `pat`: a match consumes the
matched region (`skip` characters still to be skipped after a match). -/
def countOccAux (pat : List Char) : List Char → Nat → Nat
  | [], _ => 0
  | c :: rest, 0 =>
    if leadsWith pat (c :: rest) then
      1 + countOccAux pat rest (pat.length - 1)
    else countOccAux pat rest 0
  | _ :: rest, skip + 1 => countOccAux pat rest skip

/-- Python `s.count(pat)` for the non-empty patterns the restore handler
uses. -/
def countOcc (pat s : List Char) : Nat := countOccAux pat s 0

/-- Occurrence count of `pat` in the string `s`. -/
def occCount (s pat : String) : Nat := countOcc pat.data s.data

/-- Python substring membership `pat in s`, equivalent to a positive
occurrence count for the non-empty patterns used here. -/
def containsSub (s pat : String) : Bool := decide (0 < occCount s pat)

/-- `pat` occurs inside `s` as a contiguous segment. -/
def OccursIn (pat s : List Char) : Prop := ∃ l r, s = l ++ pat ++ r

theorem leadsWith_iff {pat s : List Char} :
    leadsWith pat s = true ↔ ∃ t, s = pat ++ t := by
  induction pat generalizing s with
  | nil => simp [leadsWith]
  | cons a as ih =>
    cases s with
    | nil => simp [leadsWith]
    | cons b bs =>
      rw [leadsWith, Bool.and_eq_true, beq_iff_eq, ih]
      constructor
      · rintro ⟨rfl, t, rfl⟩
        exact ⟨t, rfl⟩
      · rintro ⟨t, ht⟩
        rw [List.cons_append] at ht
        have h2 := List.cons.injEq .. |>.mp ht
        exact ⟨h2.1.symm, t, h2.2⟩

theorem countOccAux_cons_zero (pat : List Char) (c : Char) (rest : List Char) :
    countOccAux pat (c :: rest) 0 =
      if leadsWith pat (c :: rest) then 1 + countOccAux pat rest (pat.length - 1)
      else countOccAux pat rest 0 := rfl

theorem countOcc_pos_of_occurs (pat : List Char) (hp : pat ≠ []) :
    ∀ (l r : List Char), 0 < countOcc pat (l ++ pat ++ r)
  | [], r => by
    cases hpat : pat with
    | nil => exact absurd hpat hp
    | cons a as =>
      have hlw : leadsWith (a :: as) ((a :: as) ++ r) = true :=
        leadsWith_iff.mpr ⟨r, rfl⟩
      rw [countOcc, List.nil_append, List.cons_append, countOccAux_cons_zero]
      rw [if_pos (by simpa [List.cons_append] using hlw)]
      omega
  | x :: l', r => by
    rw [countOcc, List.cons_append, List.cons_append, countOccAux_cons_zero]
    split
    · omega
    · exact countOcc_pos_of_occurs pat hp l' r

theorem occurs_of_countOcc_pos (pat : List Char) (hp : pat ≠ []) :
    ∀ (s : List Char), 0 < countOcc pat s → OccursIn pat s
  | [] => by simp [countOcc, countOccAux]
  | c :: rest => by
    intro h
    rw [countOcc, countOccAux_cons_zero] at h
    by_cases hlw : leadsWith pat (c :: rest) = true
    · obtain ⟨t, ht⟩ := leadsWith_iff.mp hlw
      exact ⟨[], t, by simp [ht]⟩
    · rw [if_neg (by simpa using hlw)] at h
      obtain ⟨l, r, hlr⟩ := occurs_of_countOcc_pos pat hp rest h
      exact ⟨c :: l, r, by simp [hlr]⟩

theorem occursIn_trans {p1 p2 s : List Char}
    (h1 : OccursIn p1 p2) (h2 : OccursIn p2 s) : OccursIn p1 s := by
  obtain ⟨l1, r1, hp⟩ := h1
  obtain ⟨l2, r2, hs⟩ := h2
  refine ⟨l2 ++ l1, r1 ++ r2, ?_⟩
  rw [hs, hp]
  simp

/-- The benign diagnostic recognized by the restore handler. -/
def warnParam : String :=
  "unrecognized configuration parameter \"transaction_timeout\""

/-- The marker `pg_restore` prefixes to fatal error lines, counted by the
restore handler's heuristic. -/
def errTag : String := "pg_restore: error"

/-- The success verdict of `restore_database_backup`, as a function of the
combined stdout+stderr of `pg_restore` and its exit code: when the
recognized warning is present, the call reports success if the output
holds no `pg_restore: error` occurrence at all, or exactly one such
occurrence (assumed to be the `transaction_timeout` diagnostic);
otherwise the verdict falls through to the exit-code test. -/
def restoreVerdict (output : String) (returncode : Int) : Bool :=
  if containsSub output warnParam then
    if (!containsSub output errTag)
        || (occCount output errTag == 1 && containsSub output "transaction_timeout") then
      true
    else decide (returncode = 0)
  else decide (returncode = 0)

/-- C7 counterexample.  An output holding the recognized warning (emitted
as a mere warning line) together with one unrelated fatal error line
(`pg_restore: error: disk full`) and a nonzero exit code is still
reported as success: the single-error heuristic cannot tell that the one
`pg_restore: error` occurrence is not the benign one, although other
fatal error text is plainly present. -/
def fatalOutput : String :=
  "pg_restore: warning: unrecognized configuration parameter \"transaction_timeout\"\npg_restore: error: disk full"

theorem restore_masks_other_fatal_error :
    containsSub fatalOutput warnParam = true
    ∧ containsSub fatalOutput "pg_restore: error: disk full" = true
    ∧ restoreVerdict fatalOutput 1 = true := by
  decide

/-- C7 (amended).  For a restore whose output contains the recognized
`unrecognized configuration parameter "transaction_timeout"` warning, the
call reports success — regardless of the exit code — iff the output holds
no occurrence of `pg_restore: error`, or exactly one occurrence (which
the heuristic assumes is the benign diagnostic, without checking); with
two or more occurrences a nonzero exit code is reported as failure. -/
theorem restore_warning_verdict
    (output : String) (returncode : Int)
    (hwarn : containsSub output warnParam = true) :
    (occCount output errTag = 0 → restoreVerdict output returncode = true)
    ∧ (occCount output errTag = 1 → restoreVerdict output returncode = true)
    ∧ (2 ≤ occCount output errTag → returncode ≠ 0 →
        restoreVerdict output returncode = false) := by
  refine ⟨?_, ?_, ?_⟩
  · intro h0
    have hc : containsSub output errTag = false := by
      simp [containsSub, h0]
    simp [restoreVerdict, hwarn, hc]
  · intro h1
    have hpos : 0 < countOcc warnParam.data output.data :=
      of_decide_eq_true hwarn
    have hsub : OccursIn ("transaction_timeout" : String).data warnParam.data :=
      ⟨("unrecognized configuration parameter \"" : String).data,
        ("\"" : String).data, by decide⟩
    obtain ⟨l, r, heq⟩ :=
      occursIn_trans hsub
        (occurs_of_countOcc_pos warnParam.data (by decide) output.data hpos)
    have hpos2 : 0 < occCount output "transaction_timeout" := by
      rw [occCount, heq]
      exact countOcc_pos_of_occurs _ (by decide) l r
    have htt : containsSub output "transaction_timeout" = true := by
      simp [containsSub, hpos2]
    have hbeq : (occCount output errTag == 1) = true := by simp [h1]
    simp [restoreVerdict, hwarn, hbeq, htt]
  · intro h2 hrc
    have hcpos : containsSub output errTag = true := by
      simp only [containsSub, decide_eq_true_eq]
      omega
    have hbeq : (occCount output errTag == 1) = false := by
      simp only [beq_eq_false_iff_ne, ne_eq]
      omega
    simp [restoreVerdict, hwarn, hcpos, hbeq, hrc]

/-- Witness output: the only `pg_restore: error` occurrence is the benign
`transaction_timeout` diagnostic itself. -/
def warnOnlyOutput : String :=
  "pg_restore: error: could not execute query: ERROR: unrecognized configuration parameter \"transaction_timeout\""

theorem restore_warning_verdict_witness :
    containsSub warnOnlyOutput warnParam = true
    ∧ ((occCount warnOnlyOutput errTag = 0 →
          restoreVerdict warnOnlyOutput 1 = true)
      ∧ (occCount warnOnlyOutput errTag = 1 →
          restoreVerdict warnOnlyOutput 1 = true)
      ∧ (2 ≤ occCount warnOnlyOutput errTag → (1 : Int) ≠ 0 →
          restoreVerdict warnOnlyOutput 1 = false)) :=
  ⟨by decide, restore_warning_verdict warnOnlyOutput 1 (by decide)⟩

/-- `fetch_table_data(table, row_limit)` / `get_table_data`: a truthy
limit adds `LIMIT <limit>` to the query, reading only the first `limit`
rows; `None` — and, the limit being tested with `if row_limit:`, also
`0` — reads the whole table. -/
def fetch_table_data (tbl : Table) (rowLimit : Option Nat) : Table :=
  match rowLimit with
  | some l => if l ≠ 0 then tbl.take l else tbl
  | none => tbl

/-- The rows read and written by a standalone table export: the export
endpoints fetch with a limit of 50000. -/
def exportTableRows (tbl : Table) : Table := fetch_table_data tbl (some 50000)

/-- The rows read and written by the per-table export step of the archive
pipeline: `archive_database_tables` / `archive_tables` fetch the table
with no limit argument at all. -/
def archiveExportRows (tbl : Table) : Table := fetch_table_data tbl none

/-- C8 counterexample.  On a table of 50001 rows the archive pipeline's
export step reads and writes all 50001 rows: the 50000-row cap is not
applied on that path. -/
theorem archive_export_uncapped :
    archiveExportRows (List.replicate 50001 ([] : Row))
        = List.replicate 50001 ([] : Row)
    ∧ (List.replicate 50001 ([] : Row)).length = 50001
    ∧ 50000 < 50001 :=
  ⟨rfl, List.length_replicate .., by omega⟩

/-- C8 (amended).  A standalone table export reads at most 50000 rows
(the first 50000 of the table); the per-table export step of the archive
pipeline reads the entire table, with no row cap. -/
theorem export_row_cap (tbl : Table) :
    (exportTableRows tbl).length ≤ 50000
    ∧ exportTableRows tbl = tbl.take 50000
    ∧ archiveExportRows tbl = tbl := by
  refine ⟨?_, rfl, rfl⟩
  exact List.length_take_le ..

/-- `get_table_names` / `get_tables`: the catalog query `SELECT table_name
FROM information_schema.tables ... ORDER BY table_name` over a reachable
store returns the stored public table names in ascending order; on a
connection failure `run_database_query` returns `None` and the caller
turns it into the empty list. -/
def get_table_names (store : Option (List String)) : List String :=
  match store with
  | none => []
  | some tables => tables.insertionSort (· ≤ ·)

/-- C9 counterexample.  When the store is unreachable the call returns
the plain empty list — the very value a reachable store with no tables
yields — instead of failing with a `ConnectionError`. -/
theorem list_tables_unreachable_is_empty :
    get_table_names none = get_table_names (some [])
    ∧ get_table_names none = [] :=
  ⟨rfl, rfl⟩

/-- C9 (amended).  The table list is the discovered names sorted
alphabetically (a sorted permutation of the store's tables); but when the
store is unreachable the connection error is swallowed and the ordinary
empty list is returned, indistinguishable from a store with no tables. -/
theorem list_tables_sorted (store : Option (List String)) (tables : List String) :
    List.Sorted (· ≤ ·) (get_table_names store)
    ∧ List.Perm (get_table_names (some tables)) tables
    ∧ get_table_names none = [] := by
  refine ⟨?_, List.perm_insertionSort _ tables, rfl⟩
  cases store with
  | none => simp [get_table_names]
  | some ts => exact List.sorted_insertionSort _ ts

end DbAppSale
